import Mathlib

attribute [local semireducible] Rat.mul Rat.add Rat.sub Rat.inv

/-!
Verification development for the pack planner packing engine.

Shallow embedding of the core data model and algorithms:
- `item` and `pack` with the acceptance protocol (`pack.add_partial_item`,
  `pack.add_item`), translated from the pack header (src/unnamed/part_000).
- The sequential fill algorithm (the sequential branch of
  `parallel_pack_strategy::pack_items`, src/include/parallel_pack_strategy.h,
  lines 156-212) and the worker-chunk fill (`worker_thread`, lines 29-121),
  both instances of one parameterised fill loop `fill_one` / `fill_all`.

Machine `double` values are modelled as exact rationals (ℚ); `int` as ℤ.
The C++ `static_cast<int>` of a nonnegative quotient is truncation toward
zero, modelled by `ratTrunc`.  The safety counter of the fill loop
(`++safety_counter > max_iterations`) is modelled as a descending fuel
argument: fuel = max_iterations - safety_counter, so fuel 0 at the head of
a loop iteration is exactly the "safety ceiling hit" break.
-/

/-- One inventory line: id, length, quantity, per-unit weight.
Also the record type stored inside a pack (the C++ `item` class plays
both roles). -/
structure item where
  id : Int
  length : Int
  quantity : Int
  weight : ℚ
  deriving DecidableEq, Repr

/-- Modelled from the spec: `item::get_total_weight` (item.h is not under
src/); section 3 of the spec defines the derived value
`total_weight = quantity * weight`. -/
def item.get_total_weight (i : item) : ℚ :=
  i.quantity * i.weight

/-- A pack: identity, accepted records, and running aggregates
(`m_total_items`, `m_total_weight`, `m_max_length`). -/
structure pack where
  pack_number : Int
  items : List item
  total_items : Int
  total_weight : ℚ
  max_length : Int
  deriving DecidableEq, Repr

/-- The pack constructor `pack(int pack_number)`: a fresh pack with the given
number, no records and zero aggregates. -/
def pack.init (n : Int) : pack :=
  ⟨n, [], 0, 0, 0⟩

/-- Truncation toward zero of a rational, the semantics of C++
`static_cast<int>` on a quotient of doubles. -/
def ratTrunc (q : ℚ) : Int :=
  if q < 0 then -(Int.floor (-q)) else Int.floor q

/-- `pack::add_partial_item` (src/unnamed/part_000, lines 67-98).
Returns the accepted quantity together with the updated pack.  The C++
method mutates the pack and returns `can_add`; here the pair is returned. -/
def pack.add_partial_item (p : pack) (id length quantity : Int) (weight : ℚ)
    (max_items : Int) (max_weight : ℚ) : Int × pack :=
  if quantity ≤ 0 ∨ max_items ≤ 0 ∨ max_weight < 0 then (0, p)
  else
    let len : Int := max 1 length
    let w : ℚ := max 0 weight
    let max_by_items : Int := max_items - p.total_items
    let weight_remaining : ℚ := max_weight - p.total_weight
    let max_by_weight : Int := if w = 0 then quantity else ratTrunc (weight_remaining / w)
    let safe_max_by_weight : Int := max 0 max_by_weight
    let can_add : Int := min (min max_by_items safe_max_by_weight) quantity
    if 0 < can_add then
      (can_add,
        { p with
          items := p.items ++ [⟨id, len, can_add, w⟩],
          total_items := p.total_items + can_add,
          total_weight := p.total_weight + can_add * w,
          max_length := max p.max_length len })
    else (can_add, p)

/-- `pack::add_item` (src/unnamed/part_000, lines 31-43): all-or-nothing
insertion of a whole item. -/
def pack.add_item (p : pack) (i : item) (max_items : Int) (max_weight : ℚ) :
    Bool × pack :=
  let new_quantity : Int := p.total_items + i.quantity
  let new_weight : ℚ := p.total_weight + i.get_total_weight
  if new_quantity ≤ max_items ∧ new_weight ≤ max_weight then
    (true,
      { p with
        items := p.items ++ [i],
        total_items := new_quantity,
        total_weight := new_weight,
        max_length := max p.max_length i.length })
  else (false, p)

/-- Parameters of one fill loop: the (already normalised) per-pack
constraints, the pack-count ceiling (`max_safe_reserve`), and the source of
pack numbers (`numOf k` is the number handed to the k-th pack created,
counting the initial pack as the 0-th). -/
structure fill_cfg where
  max_items : Int
  max_weight : ℚ
  max_reserve : Nat
  numOf : Nat → Int

/-- State of a fill loop: the packs already left behind, in creation order,
and the current pack (`packs.back()` in the C++). -/
structure fill_st where
  finished : List pack
  current : pack
  deriving Repr

/-- All packs of a fill state in creation order (the C++ vector `packs`). -/
def packs_of (st : fill_st) : List pack :=
  st.finished ++ [st.current]

/-- The inner `while (remaining_quantity > 0)` loop of the fill algorithm
(src/include/parallel_pack_strategy.h, lines 175-210 and 65-106).  The fuel
argument stands for `max_iterations - safety_counter`; each loop iteration
consumes one unit, and fuel 0 at the head of an iteration is the
`++safety_counter > max_iterations` break. -/
def fill_one (cfg : fill_cfg) (i : item) : Nat → Int → fill_st → Nat × fill_st
  | 0, remaining, st =>
    if 0 < remaining then (0, st) else (0, st)
  | fuel + 1, remaining, st =>
    if 0 < remaining then
      let r := st.current.add_partial_item i.id i.length remaining i.weight
        cfg.max_items cfg.max_weight
      if 0 < r.1 then
        fill_one cfg i fuel (remaining - r.1) { st with current := r.2 }
      else if cfg.max_weight < i.weight then (fuel, st)
      else if st.current.items.isEmpty then (fuel, st)
      else if cfg.max_reserve ≤ st.finished.length + 1 then (fuel, st)
      else
        fill_one cfg i fuel remaining
          { finished := st.finished ++ [st.current],
            current := pack.init (cfg.numOf (st.finished.length + 1)) }
    else (fuel + 1, st)

/-- The outer `for` loop over the items (skipping non-positive quantities),
threading the fuel and the fill state. -/
def fill_all (cfg : fill_cfg) : List item → Nat → fill_st → Nat × fill_st
  | [], fuel, st => (fuel, st)
  | i :: rest, fuel, st =>
    if i.quantity ≤ 0 then fill_all cfg rest fuel st
    else
      let r := fill_one cfg i fuel i.quantity st
      fill_all cfg rest r.1 r.2

/-- The sequential branch of `parallel_pack_strategy::pack_items`
(lines 156-212), taking the constraints already normalised: pack numbers
1, 2, 3, ..., pack-count ceiling `min(100000, items.size()/10 + 1000)`,
iteration ceiling 1000000.  Returns the final fuel and fill state. -/
def seq_fill (items : List item) (mi : Int) (mw : ℚ) : Nat × fill_st :=
  let reserve : Nat := min 100000 (items.length / 10 + 1000)
  fill_all ⟨mi, mw, reserve, fun k => (k : Int) + 1⟩ items 1000000 ⟨[], pack.init 1⟩

/-- The full sequential run: `pack_items` normalisation
(`max_items = max(1, max_items)`, `max_weight = max(0.1, max_weight)`)
followed by the sequential branch; exposes the final fuel and state so that
the safety ceilings can be talked about. -/
def seq_run (items : List item) (mi : Int) (mw : ℚ) : Nat × fill_st :=
  seq_fill items (max 1 mi) (max (1/10 : ℚ) mw)

/-- The pack list returned by the sequential path of `pack_items`. -/
def pack_items_seq (items : List item) (mi : Int) (mw : ℚ) : List pack :=
  packs_of (seq_run items mi mw).2

/-- One worker of the parallel path (`worker_thread`, lines 29-121), run on
its chunk of the item list.  `numOf` is the sequence of values this worker
obtains from the shared atomic `next_pack_number` counter (`numOf 0` for its
very first pack); the worker normalises the constraints itself (lines 40-41)
and uses the per-worker ceilings `min(20000, chunk/10 + 500)` packs and
500000 iterations. -/
def worker_run (numOf : Nat → Int) (chunk : List item) (mi : Int) (mw : ℚ) :
    Nat × fill_st :=
  let mi' : Int := max 1 mi
  let mw' : ℚ := max (1/10 : ℚ) mw
  let reserve : Nat := min 20000 (chunk.length / 10 + 500)
  fill_all ⟨mi', mw', reserve, numOf⟩ chunk 500000 ⟨[], pack.init (numOf 0)⟩

/-- The local pack list a worker merges into the shared result. -/
def worker_fill (numOf : Nat → Int) (chunk : List item) (mi : Int) (mw : ℚ) :
    List pack :=
  packs_of (worker_run numOf chunk mi mw).2

/-- The thread-count clamp applied at the top of `pack_items`
(lines 150-152): `min(32u, max(1u, m_num_threads))`. -/
def used_threads (m : Nat) : Nat :=
  min 32 (max 1 m)

/-- The declared default of the constructor argument
`parallel_pack_strategy(int thread_count = 4)`. -/
def hardware_default_arg : Int := 4

/-- The constructor body (lines 128-134): `m_num_threads(thread_count)`
converts `int` to `unsigned int` (reduction modulo 2^32), and a stored value
of 0 is replaced by `std::thread::hardware_concurrency()`, here the
parameter `hw`. -/
def ctor_threads (hw : Nat) (thread_count : Int) : Nat :=
  let m : Nat := (thread_count % (2 ^ 32 : Int)).toNat
  if m = 0 then hw else m

/-- `parallel_pack_strategy::pack_items` (lines 143-254): normalises the
constraints, clamps the thread count, and on `items.size() < 5000 ||
m_num_threads == 1` runs the sequential branch.  The true parallel branch
spawns OS threads and is nondeterministic; it is left out of the
deterministic embedding (`none`). -/
def parallel_pack_items (m : Nat) (items : List item) (mi : Int) (mw : ℚ) :
    Option (List pack) :=
  if items.length < 5000 ∨ used_threads m = 1 then
    some (pack_items_seq items mi mw)
  else none

/-- Modelled from the spec: the sequential (blocking) strategy's
`pack_items`.  The blocking strategy's source file is not under src/; this
definition follows the fill algorithm of spec section 4.2 step by step
(normalise, pack #1 as current, per item: skip non-positive quantity, loop:
accept, on 0 accepted drop if too heavy, drop if the current pack is empty,
else open the pack with the next sequential number), with the safety
ceilings of sections 4.3/8 at the values the parallel source names in its
"Same fixes as in blocking strategy" comment and that the C# twin
(src/PackPlannerCSharp, `PackItemsSequential`) spells out: iteration
ceiling 1000000 and pack-count ceiling `min(100000, count/10 + 1000)`. -/
def blocking_step (mi : Int) (mw : ℚ) (reserve : Nat) (i : item) :
    Nat → Int → fill_st → Nat × fill_st
  | 0, _, st => (0, st)
  | fuel + 1, remaining, st =>
    if 0 < remaining then
      let r := st.current.add_partial_item i.id i.length remaining i.weight mi mw
      if 0 < r.1 then
        blocking_step mi mw reserve i fuel (remaining - r.1) { st with current := r.2 }
      else if mw < i.weight then (fuel, st)
      else if st.current.items.isEmpty then (fuel, st)
      else if reserve ≤ st.finished.length + 1 then (fuel, st)
      else
        blocking_step mi mw reserve i fuel remaining
          { finished := st.finished ++ [st.current],
            current := pack.init ((st.finished.length + 1 : Nat) + 1) }
    else (fuel + 1, st)

/-- Modelled from the spec: the blocking strategy's loop over the items
(spec section 4.2, step 3). -/
def blocking_fold (mi : Int) (mw : ℚ) (reserve : Nat) :
    List item → Nat → fill_st → Nat × fill_st
  | [], fuel, st => (fuel, st)
  | i :: rest, fuel, st =>
    if i.quantity ≤ 0 then blocking_fold mi mw reserve rest fuel st
    else
      let r := blocking_step mi mw reserve i fuel i.quantity st
      blocking_fold mi mw reserve rest r.1 r.2

/-- Modelled from the spec: the blocking strategy's `pack_items` entry point
(spec sections 4.2 and 3: constraint normalisation, then the fill, then the
accumulated pack list in creation order). -/
def blocking_pack_items (items : List item) (mi : Int) (mw : ℚ) : List pack :=
  let mi' : Int := max 1 mi
  let mw' : ℚ := max (1/10 : ℚ) mw
  let reserve : Nat := min 100000 (items.length / 10 + 1000)
  packs_of (blocking_fold mi' mw' reserve items 1000000 ⟨[], pack.init 1⟩).2

/-- The acceptance formula as the spec states it (section 4.1): room by
count, room by weight (no limit at weight 0, otherwise the floor of the
quotient clamped to be nonnegative), and the minimum with the request. -/
def spec_room_by_weight (tw : ℚ) (w : ℚ) (q : Int) (mw : ℚ) : Int :=
  if w = 0 then q else max 0 (Int.floor ((mw - tw) / w))

/-- The spec's `accepted_quantity = min(room_by_count, room_by_weight,
requested_quantity)`. -/
def spec_accept (p : pack) (q : Int) (w : ℚ) (mi : Int) (mw : ℚ) : Int :=
  min (min (mi - p.total_items) (spec_room_by_weight p.total_weight w q mw)) q

/-- Total quantity of the records with the given id inside one pack. -/
def rec_qty (v : Int) (p : pack) : Int :=
  ((p.items.filter (fun r => r.id = v)).map item.quantity).sum

/-- Total quantity of the records with the given id across a pack list. -/
def out_qty (v : Int) (l : List pack) : Int :=
  (l.map (rec_qty v)).sum

/-- Total input quantity of the items with the given id. -/
def in_qty (v : Int) (l : List item) : Int :=
  ((l.filter (fun i => i.id = v)).map item.quantity).sum

/-! ### Basic facts about the acceptance protocol -/

/-- The quantity `add_partial_item` accepts, written as one closed
expression (0 on the defensive guard, otherwise the `can_add` minimum). -/
def accept_amount (p : pack) (q : Int) (w : ℚ) (mi : Int) (mw : ℚ) : Int :=
  if q ≤ 0 ∨ mi ≤ 0 ∨ mw < 0 then 0
  else
    min (min (mi - p.total_items)
      (max 0 (if max 0 w = 0 then q
              else ratTrunc ((mw - p.total_weight) / max 0 w)))) q

theorem add_partial_fst (p : pack) (id length q : Int) (w : ℚ)
    (mi : Int) (mw : ℚ) :
    (p.add_partial_item id length q w mi mw).1 = accept_amount p q w mi mw := by
  simp only [pack.add_partial_item, accept_amount]
  split_ifs <;> rfl

theorem add_partial_snd_pos (p : pack) (id length q : Int) (w : ℚ)
    (mi : Int) (mw : ℚ) (h : 0 < accept_amount p q w mi mw) :
    (p.add_partial_item id length q w mi mw).2 =
      { p with
        items := p.items ++
          [⟨id, max 1 length, accept_amount p q w mi mw, max 0 w⟩],
        total_items := p.total_items + accept_amount p q w mi mw,
        total_weight := p.total_weight + (accept_amount p q w mi mw : ℚ) * max 0 w,
        max_length := max p.max_length (max 1 length) } := by
  simp only [pack.add_partial_item, accept_amount] at h ⊢
  split_ifs at h ⊢ <;> first | rfl | omega

theorem add_partial_snd_nonpos (p : pack) (id length q : Int) (w : ℚ)
    (mi : Int) (mw : ℚ) (h : accept_amount p q w mi mw ≤ 0) :
    (p.add_partial_item id length q w mi mw).2 = p := by
  simp only [pack.add_partial_item, accept_amount] at h ⊢
  split_ifs at h ⊢ <;> first | rfl | omega

theorem accept_amount_le (p : pack) (q : Int) (w : ℚ) (mi : Int) (mw : ℚ)
    (hq : 0 ≤ q) : accept_amount p q w mi mw ≤ q := by
  simp only [accept_amount]
  split_ifs <;> omega

theorem accept_amount_le_room (p : pack) (q : Int) (w : ℚ) (mi : Int) (mw : ℚ)
    (h : 0 < accept_amount p q w mi mw) :
    accept_amount p q w mi mw ≤ mi - p.total_items := by
  simp only [accept_amount] at h ⊢
  split_ifs at h ⊢ <;> omega

/-- Weight-room bound for a successful acceptance: either the (floored)
weight is zero, or the accepted quantity times the weight still fits under
`max_weight`. -/
theorem accept_amount_weight (p : pack) (q : Int) (w : ℚ) (mi : Int) (mw : ℚ)
    (h : 0 < accept_amount p q w mi mw) :
    max 0 w = 0 ∨
      p.total_weight + (accept_amount p q w mi mw : ℚ) * max 0 w ≤ mw := by
  by_cases hw : max 0 w = 0
  · exact Or.inl hw
  right
  have hwpos : (0 : ℚ) < max 0 w := lt_of_le_of_ne (le_max_left _ _) (Ne.symm hw)
  have hcle : accept_amount p q w mi mw ≤
      ratTrunc ((mw - p.total_weight) / max 0 w) := by
    have h2 := h
    simp only [accept_amount, if_neg hw] at h2 ⊢
    split_ifs at h2 ⊢ <;> omega
  have hx : (0 : ℚ) ≤ (mw - p.total_weight) / max 0 w := by
    by_contra hneg
    push_neg at hneg
    have h1 : ratTrunc ((mw - p.total_weight) / max 0 w) ≤ 0 := by
      simp only [ratTrunc, if_pos hneg]
      have := Int.floor_nonneg.mpr (le_of_lt (neg_pos.mpr hneg))
      omega
    omega
  have hfl : ratTrunc ((mw - p.total_weight) / max 0 w) =
      Int.floor ((mw - p.total_weight) / max 0 w) := by
    simp only [ratTrunc, if_neg (not_lt.mpr hx)]
  have hcle2 : ((accept_amount p q w mi mw : Int) : ℚ) ≤
      (mw - p.total_weight) / max 0 w := by
    rw [hfl] at hcle
    exact le_trans (Int.cast_le.mpr hcle) (Int.floor_le _)
  have hmul := mul_le_mul_of_nonneg_right hcle2 (le_of_lt hwpos)
  rw [div_mul_cancel₀ _ (ne_of_gt hwpos)] at hmul
  linarith

theorem add_partial_number (p : pack) (id length q : Int) (w : ℚ)
    (mi : Int) (mw : ℚ) :
    (p.add_partial_item id length q w mi mw).2.pack_number = p.pack_number := by
  simp only [pack.add_partial_item]
  split_ifs <;> rfl

/-- On a pack with zero aggregates, under normalised constraints and with a
unit weight not above the weight limit, at least one unit is accepted. -/
theorem accept_amount_pos (p : pack) (q : Int) (w : ℚ) (mi : Int) (mw : ℚ)
    (hti : p.total_items = 0) (htw : p.total_weight = 0)
    (hq : 0 < q) (hmi : 1 ≤ mi) (hmw : 1/10 ≤ mw) (hwle : w ≤ mw) :
    0 < accept_amount p q w mi mw := by
  have hguard : ¬(q ≤ 0 ∨ mi ≤ 0 ∨ mw < 0) := by
    push_neg
    refine ⟨by omega, by omega, by linarith⟩
  simp only [accept_amount, if_neg hguard, hti, htw]
  by_cases hw : max 0 w = 0
  · rw [if_pos hw]
    omega
  · rw [if_neg hw]
    have hwpos : (0 : ℚ) < max 0 w := lt_of_le_of_ne (le_max_left _ _) (Ne.symm hw)
    have hweq : max 0 w = w := by
      rcases max_cases 0 w with ⟨h1, h2⟩ | ⟨h1, h2⟩
      · rw [h1] at hwpos
        exact absurd hwpos (lt_irrefl 0)
      · exact h1
    have hwpos2 : (0 : ℚ) < w := by
      rw [hweq] at hwpos
      exact hwpos
    have hx1 : (1 : ℚ) ≤ (mw - 0) / max 0 w := by
      rw [sub_zero, hweq, le_div_iff₀ hwpos2, one_mul]
      exact hwle
    have hfl : 1 ≤ ratTrunc ((mw - 0) / max 0 w) := by
      have hx0 : ¬((mw - 0) / max 0 w < 0) := by linarith
      simp only [ratTrunc, if_neg hx0]
      exact Int.le_floor.mpr (by exact_mod_cast hx1)
    omega

/-- An item strictly heavier than the weight limit is never accepted, by any
pack whose running weight is within bounds. -/
theorem accept_amount_heavy (p : pack) (q : Int) (w : ℚ) (mi : Int) (mw : ℚ)
    (h0 : 0 ≤ p.total_weight) (h1 : p.total_weight ≤ mw)
    (hmw : 1/10 ≤ mw) (hw : mw < w) :
    accept_amount p q w mi mw ≤ 0 := by
  by_cases hguard : q ≤ 0 ∨ mi ≤ 0 ∨ mw < 0
  · simp only [accept_amount, if_pos hguard]
    exact le_refl 0
  · simp only [accept_amount, if_neg hguard]
    have hwpos : (0 : ℚ) < w := lt_of_le_of_lt (by linarith) hw
    have hweq : max 0 w = w := max_eq_right (le_of_lt hwpos)
    have hwne : ¬(max 0 w = 0) := by
      rw [hweq]
      exact ne_of_gt hwpos
    rw [if_neg hwne, hweq]
    have hlt : (mw - p.total_weight) / w < 1 := by
      rw [div_lt_one hwpos]
      linarith
    have hge : (0 : ℚ) ≤ (mw - p.total_weight) / w :=
      div_nonneg (by linarith) (le_of_lt hwpos)
    have hfl : ratTrunc ((mw - p.total_weight) / w) = 0 := by
      simp only [ratTrunc, if_neg (not_lt.mpr hge)]
      rw [Int.floor_eq_zero_iff]
      exact ⟨hge, hlt⟩
    omega

/-! ### Fill-loop invariants -/

/-- The per-pack well-formedness the fill loop maintains: item count and
weight within the (normalised) constraints, nonnegative weight, and zero
aggregates while no record has been accepted. -/
def pack_inv (mi : Int) (mw : ℚ) (p : pack) : Prop :=
  p.total_items ≤ mi ∧ 0 ≤ p.total_weight ∧ p.total_weight ≤ mw ∧
    (p.items = [] → p.total_items = 0 ∧ p.total_weight = 0)

/-- The fill-state invariant: every finished pack and the current pack are
well formed. -/
def st_inv (mi : Int) (mw : ℚ) (st : fill_st) : Prop :=
  (∀ p ∈ st.finished, pack_inv mi mw p) ∧ pack_inv mi mw st.current

theorem pack_init_inv (n : Int) (mi : Int) (mw : ℚ)
    (hmi : 0 ≤ mi) (hmw : 0 ≤ mw) : pack_inv mi mw (pack.init n) :=
  ⟨hmi, le_refl 0, hmw, fun _ => ⟨rfl, rfl⟩⟩

/-- Acceptance preserves per-pack well-formedness. -/
theorem add_partial_inv (p : pack) (id length q : Int) (w : ℚ)
    (mi : Int) (mw : ℚ) (hp : pack_inv mi mw p) :
    pack_inv mi mw (p.add_partial_item id length q w mi mw).2 := by
  by_cases hpos : 0 < accept_amount p q w mi mw
  · rw [add_partial_snd_pos p id length q w mi mw hpos]
    have hroom := accept_amount_le_room p q w mi mw hpos
    refine ⟨by dsimp only; omega, ?_, ?_, ?_⟩
    · dsimp only
      have : (0 : ℚ) ≤ (accept_amount p q w mi mw : ℚ) * max 0 w :=
        mul_nonneg (by exact_mod_cast le_of_lt hpos) (le_max_left _ _)
      linarith [hp.2.1]
    · dsimp only
      rcases accept_amount_weight p q w mi mw hpos with hz | hle
      · rw [hz, mul_zero, add_zero]
        exact hp.2.2.1
      · exact hle
    · intro he
      exact absurd he (by simp)
  · rw [add_partial_snd_nonpos p id length q w mi mw (le_of_not_lt hpos)]
    exact hp

/-- The inner fill loop preserves the state invariant. -/
theorem fill_one_inv (cfg : fill_cfg) (i : item)
    (hmi : 0 ≤ cfg.max_items) (hmw : 0 ≤ cfg.max_weight) :
    ∀ fuel (r : Int) (st : fill_st),
      st_inv cfg.max_items cfg.max_weight st →
      st_inv cfg.max_items cfg.max_weight (fill_one cfg i fuel r st).2 := by
  intro fuel
  induction fuel with
  | zero =>
    intro r st h
    simp only [fill_one]
    split <;> exact h
  | succ fuel ih =>
    intro r st h
    simp only [fill_one]
    by_cases h0 : 0 < r
    · simp only [if_pos h0]
      by_cases hacc : 0 < (st.current.add_partial_item i.id i.length r i.weight
          cfg.max_items cfg.max_weight).1
      · simp only [if_pos hacc]
        exact ih _ _ ⟨h.1, add_partial_inv _ _ _ _ _ _ _ h.2⟩
      · simp only [if_neg hacc]
        split_ifs
        · exact h
        · exact h
        · exact h
        · refine ih _ _ ⟨?_, pack_init_inv _ _ _ hmi hmw⟩
          intro p hp
          rcases List.mem_append.mp hp with hp | hp
          · exact h.1 p hp
          · rw [List.mem_singleton.mp hp]
            exact h.2
    · simp only [if_neg h0]
      exact h

/-- The outer loop preserves the state invariant. -/
theorem fill_all_inv (cfg : fill_cfg)
    (hmi : 0 ≤ cfg.max_items) (hmw : 0 ≤ cfg.max_weight) :
    ∀ (items : List item) fuel (st : fill_st),
      st_inv cfg.max_items cfg.max_weight st →
      st_inv cfg.max_items cfg.max_weight (fill_all cfg items fuel st).2 := by
  intro items
  induction items with
  | nil =>
    intro fuel st h
    exact h
  | cons i rest ih =>
    intro fuel st h
    simp only [fill_all]
    split_ifs
    · exact ih _ _ h
    · exact ih _ _ (fill_one_inv cfg i hmi hmw _ _ _ h)

/-! ### Monotonicity of fuel and pack count -/

theorem fill_one_fst_le (cfg : fill_cfg) (i : item) :
    ∀ fuel (r : Int) (st : fill_st), (fill_one cfg i fuel r st).1 ≤ fuel := by
  intro fuel
  induction fuel with
  | zero =>
    intro r st
    simp only [fill_one]
    split <;> exact le_refl 0
  | succ fuel ih =>
    intro r st
    simp only [fill_one]
    by_cases h0 : 0 < r
    · simp only [if_pos h0]
      by_cases hacc : 0 < (st.current.add_partial_item i.id i.length r i.weight
          cfg.max_items cfg.max_weight).1
      · simp only [if_pos hacc]
        exact le_trans (ih _ _) (Nat.le_succ _)
      · simp only [if_neg hacc]
        split_ifs
        · exact Nat.le_succ _
        · exact Nat.le_succ _
        · exact Nat.le_succ _
        · exact le_trans (ih _ _) (Nat.le_succ _)
    · simp only [if_neg h0]
      exact le_refl _

theorem fill_all_fst_le (cfg : fill_cfg) :
    ∀ (items : List item) fuel (st : fill_st),
      (fill_all cfg items fuel st).1 ≤ fuel := by
  intro items
  induction items with
  | nil =>
    intro fuel st
    exact le_refl _
  | cons i rest ih =>
    intro fuel st
    simp only [fill_all]
    split_ifs
    · exact ih _ _
    · exact le_trans (ih _ _) (fill_one_fst_le cfg i _ _ _)

theorem fill_one_finlen (cfg : fill_cfg) (i : item) :
    ∀ fuel (r : Int) (st : fill_st),
      st.finished.length ≤ (fill_one cfg i fuel r st).2.finished.length := by
  intro fuel
  induction fuel with
  | zero =>
    intro r st
    simp only [fill_one]
    split <;> exact le_refl _
  | succ fuel ih =>
    intro r st
    simp only [fill_one]
    by_cases h0 : 0 < r
    · simp only [if_pos h0]
      by_cases hacc : 0 < (st.current.add_partial_item i.id i.length r i.weight
          cfg.max_items cfg.max_weight).1
      · simp only [if_pos hacc]
        exact ih (r - (st.current.add_partial_item i.id i.length r i.weight
            cfg.max_items cfg.max_weight).1)
          { st with current := (st.current.add_partial_item i.id i.length r i.weight
              cfg.max_items cfg.max_weight).2 }
      · simp only [if_neg hacc]
        split_ifs
        · exact le_refl _
        · exact le_refl _
        · exact le_refl _
        · refine le_trans ?_ (ih _ _)
          simp
    · simp only [if_neg h0]
      exact le_refl _

theorem fill_all_finlen (cfg : fill_cfg) :
    ∀ (items : List item) fuel (st : fill_st),
      st.finished.length ≤ (fill_all cfg items fuel st).2.finished.length := by
  intro items
  induction items with
  | nil =>
    intro fuel st
    exact le_refl _
  | cons i rest ih =>
    intro fuel st
    simp only [fill_all]
    split_ifs
    · exact ih _ _
    · exact le_trans (fill_one_finlen cfg i _ _ _) (ih _ _)

/-! ### Quantity accounting -/

theorem out_qty_append (v : Int) (l1 l2 : List pack) :
    out_qty v (l1 ++ l2) = out_qty v l1 + out_qty v l2 := by
  simp [out_qty]

theorem out_qty_packs (v : Int) (st : fill_st) :
    out_qty v (packs_of st) = out_qty v st.finished + rec_qty v st.current := by
  simp [packs_of, out_qty_append, out_qty]

theorem rec_qty_snoc (v : Int) (p : pack) (l : List item) (rr : item)
    (h : p.items = l ++ [rr]) (p' : pack) (h' : p'.items = l) :
    rec_qty v p = rec_qty v p' + (if rr.id = v then rr.quantity else 0) := by
  simp only [rec_qty, h, h', List.filter_append, List.map_append, List.sum_append]
  congr 1
  by_cases hv : rr.id = v
  · simp [List.filter_singleton, hv]
  · simp [List.filter_singleton, hv]

theorem rec_qty_init (v : Int) (n : Int) : rec_qty v (pack.init n) = 0 := rfl

theorem in_qty_cons (v : Int) (i : item) (rest : List item) :
    in_qty v (i :: rest) =
      (if i.id = v then i.quantity else 0) + in_qty v rest := by
  simp only [in_qty, List.filter_cons]
  by_cases hv : i.id = v
  · simp [hv]
  · simp [hv]

/-- Conservation through one inner fill loop: if neither the iteration
ceiling nor the pack-count ceiling is hit, and the item is not too heavy,
the whole remaining quantity ends up in records of the item's id. -/
theorem fill_one_out_qty (cfg : fill_cfg) (i : item) (v : Int)
    (hmi : 1 ≤ cfg.max_items) (hmw : 1/10 ≤ cfg.max_weight)
    (hwle : i.weight ≤ cfg.max_weight) :
    ∀ fuel (r : Int) (st : fill_st),
      st_inv cfg.max_items cfg.max_weight st →
      0 ≤ r →
      0 < (fill_one cfg i fuel r st).1 →
      (fill_one cfg i fuel r st).2.finished.length + 1 < cfg.max_reserve →
      out_qty v (packs_of (fill_one cfg i fuel r st).2) =
        out_qty v (packs_of st) + (if i.id = v then r else 0) := by
  intro fuel
  induction fuel with
  | zero =>
    intro r st hinv hr hfuel hcap
    exfalso
    simp only [fill_one] at hfuel
    split at hfuel <;> simp at hfuel
  | succ fuel ih =>
    intro r st hinv hr hfuel hcap
    simp only [fill_one] at hfuel hcap ⊢
    by_cases h0 : 0 < r
    · simp only [if_pos h0] at hfuel hcap ⊢
      by_cases hacc : 0 < (st.current.add_partial_item i.id i.length r i.weight
          cfg.max_items cfg.max_weight).1
      · simp only [if_pos hacc] at hfuel hcap ⊢
        have hca : (st.current.add_partial_item i.id i.length r i.weight
            cfg.max_items cfg.max_weight).1 =
            accept_amount st.current r i.weight cfg.max_items cfg.max_weight :=
          add_partial_fst _ _ _ _ _ _ _
        have hpos : 0 < accept_amount st.current r i.weight cfg.max_items cfg.max_weight := by
          rw [hca] at hacc
          exact hacc
        have hle : (st.current.add_partial_item i.id i.length r i.weight
            cfg.max_items cfg.max_weight).1 ≤ r := by
          rw [hca]
          exact accept_amount_le _ _ _ _ _ hr
        have hkey : out_qty v (packs_of
            { st with current := (st.current.add_partial_item i.id i.length r i.weight
                cfg.max_items cfg.max_weight).2 }) =
            out_qty v (packs_of st) +
              (if i.id = v then (st.current.add_partial_item i.id i.length r i.weight
                cfg.max_items cfg.max_weight).1 else 0) := by
          rw [out_qty_packs, out_qty_packs]
          have hsnd := add_partial_snd_pos st.current i.id i.length r i.weight
            cfg.max_items cfg.max_weight hpos
          have hrec := rec_qty_snoc v
            (st.current.add_partial_item i.id i.length r i.weight
              cfg.max_items cfg.max_weight).2
            st.current.items
            ⟨i.id, max 1 i.length,
              accept_amount st.current r i.weight cfg.max_items cfg.max_weight,
              max 0 i.weight⟩
            (by rw [hsnd]) st.current rfl
          simp only [hrec, hca]
          omega
        rw [ih (r - (st.current.add_partial_item i.id i.length r i.weight
              cfg.max_items cfg.max_weight).1)
            { st with current := (st.current.add_partial_item i.id i.length r i.weight
                cfg.max_items cfg.max_weight).2 }
            ⟨hinv.1, add_partial_inv _ i.id i.length r i.weight _ _ hinv.2⟩
            (by omega) hfuel hcap, hkey]
        by_cases hv : i.id = v
        · simp only [if_pos hv]
          omega
        · simp only [if_neg hv]
          omega
      · simp only [if_neg hacc] at hfuel hcap ⊢
        have hh : ¬(cfg.max_weight < i.weight) := not_lt.mpr hwle
        simp only [if_neg hh] at hfuel hcap ⊢
        by_cases he : st.current.items.isEmpty = true
        · exfalso
          have hnil : st.current.items = [] := by
            simpa [List.isEmpty_iff] using he
          have hz := hinv.2.2.2.2 hnil
          have := accept_amount_pos st.current r i.weight cfg.max_items cfg.max_weight
            hz.1 hz.2 h0 hmi hmw hwle
          rw [← add_partial_fst st.current i.id i.length r i.weight
            cfg.max_items cfg.max_weight] at this
          exact hacc this
        · simp only [if_neg he] at hfuel hcap ⊢
          by_cases hcap2 : cfg.max_reserve ≤ st.finished.length + 1
          · exfalso
            simp only [if_pos hcap2] at hcap
            omega
          · simp only [if_neg hcap2] at hfuel hcap ⊢
            have hinv2 : st_inv cfg.max_items cfg.max_weight
                { finished := st.finished ++ [st.current],
                  current := pack.init (cfg.numOf (st.finished.length + 1)) } := by
              refine ⟨?_, pack_init_inv _ _ _ (by omega) (by linarith)⟩
              intro p hp
              rcases List.mem_append.mp hp with hp | hp
              · exact hinv.1 p hp
              · rw [List.mem_singleton.mp hp]
                exact hinv.2
            rw [ih _ _ hinv2 hr hfuel hcap]
            have : out_qty v (packs_of
                { finished := st.finished ++ [st.current],
                  current := pack.init (cfg.numOf (st.finished.length + 1)) }) =
                out_qty v (packs_of st) := by
              rw [out_qty_packs, out_qty_packs]
              simp only [out_qty_append, rec_qty_init]
              simp [out_qty]
            rw [this]
    · simp only [if_neg h0] at hfuel hcap ⊢
      have : r = 0 := by omega
      rw [this]
      simp

/-- Conservation through the whole fill: when every item is packable and no
safety ceiling is hit, the output records of each id carry exactly the input
quantity of that id. -/
theorem fill_all_out_qty (cfg : fill_cfg) (v : Int)
    (hmi : 1 ≤ cfg.max_items) (hmw : 1/10 ≤ cfg.max_weight) :
    ∀ (items : List item) fuel (st : fill_st),
      (∀ i ∈ items, 0 < i.quantity ∧ i.weight ≤ cfg.max_weight) →
      st_inv cfg.max_items cfg.max_weight st →
      0 < (fill_all cfg items fuel st).1 →
      (fill_all cfg items fuel st).2.finished.length + 1 < cfg.max_reserve →
      out_qty v (packs_of (fill_all cfg items fuel st).2) =
        out_qty v (packs_of st) + in_qty v items := by
  intro items
  induction items with
  | nil =>
    intro fuel st _ _ _ _
    simp [fill_all, in_qty]
  | cons i rest ih =>
    intro fuel st hall hinv hfuel hcap
    have hi := hall i (List.mem_cons_self i rest)
    have hskip : ¬(i.quantity ≤ 0) := by omega
    simp only [fill_all, if_neg hskip] at hfuel hcap ⊢
    have hf1 : 0 < (fill_one cfg i fuel i.quantity st).1 := by
      have := fill_all_fst_le cfg rest (fill_one cfg i fuel i.quantity st).1
        (fill_one cfg i fuel i.quantity st).2
      omega
    have hc1 : (fill_one cfg i fuel i.quantity st).2.finished.length + 1 <
        cfg.max_reserve := by
      have := fill_all_finlen cfg rest (fill_one cfg i fuel i.quantity st).1
        (fill_one cfg i fuel i.quantity st).2
      omega
    rw [ih (fill_one cfg i fuel i.quantity st).1 (fill_one cfg i fuel i.quantity st).2
        (fun j hj => hall j (List.mem_cons_of_mem i hj))
        (fill_one_inv cfg i (by omega) (by linarith) _ _ _ hinv) hfuel hcap]
    rw [fill_one_out_qty cfg i v hmi hmw hi.2 fuel i.quantity st hinv
      (le_of_lt hi.1) hf1 hc1]
    rw [in_qty_cons]
    omega

/-! ### Heavy items leave the state untouched -/

/-- The inner loop on a too-heavy item never changes the fill state: the
first acceptance attempt yields 0 and the too-heavy branch drops the whole
remaining quantity. -/
theorem fill_one_heavy_state (cfg : fill_cfg) (i : item)
    (hmw : 1/10 ≤ cfg.max_weight) (hheavy : cfg.max_weight < i.weight) :
    ∀ fuel (r : Int) (st : fill_st),
      0 ≤ st.current.total_weight →
      st.current.total_weight ≤ cfg.max_weight →
      (fill_one cfg i fuel r st).2 = st := by
  intro fuel r st h0w h1w
  cases fuel with
  | zero =>
    simp only [fill_one]
    split <;> rfl
  | succ fuel =>
    simp only [fill_one]
    by_cases h0 : 0 < r
    · simp only [if_pos h0]
      have hacc : ¬(0 < (st.current.add_partial_item i.id i.length r i.weight
          cfg.max_items cfg.max_weight).1) := by
        rw [add_partial_fst]
        have := accept_amount_heavy st.current r i.weight cfg.max_items
          cfg.max_weight h0w h1w hmw hheavy
        omega
      simp only [if_neg hacc, if_pos hheavy]
    · simp only [if_neg h0]

/-- No record with the given id anywhere in the state. -/
def no_rec (v : Int) (st : fill_st) : Prop :=
  (∀ p ∈ st.finished, ∀ rr ∈ p.items, rr.id ≠ v) ∧
    ∀ rr ∈ st.current.items, rr.id ≠ v

/-- The inner loop cannot create a record of an id it is not processing. -/
theorem fill_one_no_rec (cfg : fill_cfg) (i : item) (v : Int)
    (hne : i.id ≠ v) :
    ∀ fuel (r : Int) (st : fill_st),
      no_rec v st → no_rec v (fill_one cfg i fuel r st).2 := by
  intro fuel
  induction fuel with
  | zero =>
    intro r st h
    simp only [fill_one]
    split <;> exact h
  | succ fuel ih =>
    intro r st h
    simp only [fill_one]
    by_cases h0 : 0 < r
    · simp only [if_pos h0]
      by_cases hacc : 0 < (st.current.add_partial_item i.id i.length r i.weight
          cfg.max_items cfg.max_weight).1
      · simp only [if_pos hacc]
        refine ih _ _ ⟨h.1, ?_⟩
        intro rr hrr
        have hpos : 0 < accept_amount st.current r i.weight cfg.max_items
            cfg.max_weight := by
          rw [add_partial_fst] at hacc
          exact hacc
        rw [add_partial_snd_pos st.current i.id i.length r i.weight
          cfg.max_items cfg.max_weight hpos] at hrr
        simp only [List.mem_append, List.mem_singleton] at hrr
        rcases hrr with hrr | hrr
        · exact h.2 rr hrr
        · rw [hrr]
          exact hne
      · simp only [if_neg hacc]
        split_ifs
        · exact h
        · exact h
        · exact h
        · refine ih _ _ ⟨?_, ?_⟩
          · intro p hp
            rcases List.mem_append.mp hp with hp | hp
            · exact h.1 p hp
            · rw [List.mem_singleton.mp hp]
              exact h.2
          · intro rr hrr
            exact absurd hrr (by simp [pack.init])
    · simp only [if_neg h0]
      exact h

/-- Through the whole fill, ids whose items are all too heavy never reach a
record. -/
theorem fill_all_no_rec (cfg : fill_cfg) (v : Int)
    (hmi : 0 ≤ cfg.max_items) (hmw : 1/10 ≤ cfg.max_weight) :
    ∀ (items : List item) fuel (st : fill_st),
      (∀ i ∈ items, i.id = v → cfg.max_weight < i.weight) →
      st_inv cfg.max_items cfg.max_weight st →
      no_rec v st → no_rec v (fill_all cfg items fuel st).2 := by
  intro items
  induction items with
  | nil =>
    intro fuel st _ _ h
    exact h
  | cons i rest ih =>
    intro fuel st hall hinv h
    simp only [fill_all]
    split_ifs
    · exact ih _ _ (fun j hj => hall j (List.mem_cons_of_mem i hj)) hinv h
    · refine ih _ _ (fun j hj => hall j (List.mem_cons_of_mem i hj))
        (fill_one_inv cfg i hmi (by linarith) _ _ _ hinv) ?_
      by_cases hv : i.id = v
      · have hheavy := hall i (List.mem_cons_self i rest) hv
        rw [fill_one_heavy_state cfg i hmw hheavy _ _ _ hinv.2.2.1 hinv.2.2.2.1]
        exact h
      · exact fill_one_no_rec cfg i v hv _ _ _ h

/-! ### Sequential pack numbering -/

/-- The numbering invariant of the sequential fill: finished packs carry
1, 2, ..., n in order and the current pack carries n+1. -/
def nums_ok (st : fill_st) : Prop :=
  st.finished.map pack.pack_number =
    (List.range st.finished.length).map (fun k : Nat => (k : Int) + 1) ∧
    st.current.pack_number = (st.finished.length : Int) + 1

theorem fill_one_nums (cfg : fill_cfg) (i : item)
    (hnum : cfg.numOf = fun k : Nat => (k : Int) + 1) :
    ∀ fuel (r : Int) (st : fill_st),
      nums_ok st → nums_ok (fill_one cfg i fuel r st).2 := by
  intro fuel
  induction fuel with
  | zero =>
    intro r st h
    simp only [fill_one]
    split <;> exact h
  | succ fuel ih =>
    intro r st h
    simp only [fill_one]
    by_cases h0 : 0 < r
    · simp only [if_pos h0]
      by_cases hacc : 0 < (st.current.add_partial_item i.id i.length r i.weight
          cfg.max_items cfg.max_weight).1
      · simp only [if_pos hacc]
        refine ih _ _ ⟨h.1, ?_⟩
        rw [add_partial_number]
        exact h.2
      · simp only [if_neg hacc]
        split_ifs
        · exact h
        · exact h
        · exact h
        · refine ih _ _ ⟨?_, ?_⟩
          · simp only [List.map_append, List.length_append, List.map_cons,
              List.map_nil, List.length_cons, List.length_nil]
            rw [h.1, h.2]
            rw [List.range_succ]
            simp
          · rw [hnum]
            simp only [List.length_append, List.length_cons, List.length_nil]
            simp only [pack.init]
    · simp only [if_neg h0]
      exact h

theorem fill_all_nums (cfg : fill_cfg)
    (hnum : cfg.numOf = fun k : Nat => (k : Int) + 1) :
    ∀ (items : List item) fuel (st : fill_st),
      nums_ok st → nums_ok (fill_all cfg items fuel st).2 := by
  intro items
  induction items with
  | nil =>
    intro fuel st h
    exact h
  | cons i rest ih =>
    intro fuel st h
    simp only [fill_all]
    split_ifs
    · exact ih _ _ h
    · exact ih _ _ (fill_one_nums cfg i hnum _ _ _ h)

/-! ### The spec-modelled blocking fill agrees with the source's sequential branch -/

theorem blocking_step_eq (mi : Int) (mw : ℚ) (reserve : Nat) (i : item) :
    ∀ fuel (r : Int) (st : fill_st),
      blocking_step mi mw reserve i fuel r st =
        fill_one ⟨mi, mw, reserve, fun k => (k : Int) + 1⟩ i fuel r st := by
  intro fuel
  induction fuel with
  | zero =>
    intro r st
    simp only [blocking_step, fill_one, ite_self]
  | succ fuel ih =>
    intro r st
    simp only [blocking_step, fill_one]
    by_cases h0 : 0 < r
    · simp only [if_pos h0]
      by_cases hacc : 0 < (st.current.add_partial_item i.id i.length r i.weight mi mw).1
      · simp only [if_pos hacc]
        exact ih _ _
      · simp only [if_neg hacc]
        split_ifs
        · rfl
        · rfl
        · rfl
        · rw [ih]
    · simp only [if_neg h0]

theorem blocking_fold_eq (mi : Int) (mw : ℚ) (reserve : Nat) :
    ∀ (items : List item) fuel (st : fill_st),
      blocking_fold mi mw reserve items fuel st =
        fill_all ⟨mi, mw, reserve, fun k => (k : Int) + 1⟩ items fuel st := by
  intro items
  induction items with
  | nil =>
    intro fuel st
    rfl
  | cons i rest ih =>
    intro fuel st
    simp only [blocking_fold, fill_all]
    split_ifs
    · exact ih _ _
    · rw [blocking_step_eq]
      exact ih _ _

/-- The spec-modelled blocking strategy computes exactly the sequential path
of the parallel strategy's `pack_items`. -/
theorem blocking_eq_seq (items : List item) (mi : Int) (mw : ℚ) :
    blocking_pack_items items mi mw = pack_items_seq items mi mw := by
  simp only [blocking_pack_items, pack_items_seq, seq_run, seq_fill]
  rw [blocking_fold_eq]

/-! ### Small bridging lemmas -/

theorem empty_st_inv (mi : Int) (mw : ℚ) (n : Int) (hmi : 0 ≤ mi) (hmw : 0 ≤ mw) :
    st_inv mi mw ⟨[], pack.init n⟩ :=
  ⟨fun p hp => absurd hp (List.not_mem_nil p), pack_init_inv n mi mw hmi hmw⟩

theorem st_inv_mem (mi : Int) (mw : ℚ) (st : fill_st) (h : st_inv mi mw st) :
    ∀ p ∈ packs_of st, pack_inv mi mw p := by
  intro p hp
  rcases List.mem_append.mp hp with hp | hp
  · exact h.1 p hp
  · rw [List.mem_singleton.mp hp]
    exact h.2

theorem rec_qty_zero (v : Int) (p : pack) (h : ∀ rr ∈ p.items, rr.id ≠ v) :
    rec_qty v p = 0 := by
  simp only [rec_qty]
  have : p.items.filter (fun r => r.id = v) = [] := by
    rw [List.filter_eq_nil_iff]
    intro a ha
    simpa using h a ha
  rw [this]
  rfl

theorem out_qty_zero (v : Int) (l : List pack)
    (h : ∀ p ∈ l, ∀ rr ∈ p.items, rr.id ≠ v) : out_qty v l = 0 := by
  induction l with
  | nil => rfl
  | cons p rest ih =>
    have h1 := rec_qty_zero v p (h p (List.mem_cons_self p rest))
    have h2 := ih (fun q hq => h q (List.mem_cons_of_mem p hq))
    simp only [out_qty, List.map_cons, List.sum_cons] at h2 ⊢
    rw [h1, h2]
    rfl

theorem max_zero_ratTrunc (x : ℚ) : max 0 (ratTrunc x) = max 0 (Int.floor x) := by
  by_cases hx : x < 0
  · simp only [ratTrunc, if_pos hx]
    have h1 : 0 ≤ Int.floor (-x) := Int.floor_nonneg.mpr (by linarith)
    have h2 : Int.floor x ≤ 0 := by
      have := Int.floor_le_floor (le_of_lt hx)
      simpa using this
    omega
  · simp only [ratTrunc, if_neg hx]

/-! ### Claim theorems -/

/-- C1: every pack produced by the sequential path of `pack_items`, and every
pack in any worker chunk's local result, satisfies the capacity invariant
`total_items <= max(1, max_items)` and
`total_weight <= max(0.1, max_weight) + 1e-9`. -/
theorem capacity_invariant (items chunk : List item) (numOf : Nat → Int)
    (mi : Int) (mw : ℚ) :
    (∀ p ∈ pack_items_seq items mi mw,
      p.total_items ≤ max 1 mi ∧
        p.total_weight ≤ max (1/10 : ℚ) mw + 1/1000000000) ∧
    (∀ p ∈ worker_fill numOf chunk mi mw,
      p.total_items ≤ max 1 mi ∧
        p.total_weight ≤ max (1/10 : ℚ) mw + 1/1000000000) := by
  have hmi0 : (0 : Int) ≤ max 1 mi := le_trans zero_le_one (le_max_left 1 mi)
  have hmw0 : (0 : ℚ) ≤ max (1/10 : ℚ) mw :=
    le_trans (by norm_num) (le_max_left (1/10 : ℚ) mw)
  constructor
  · intro p hp
    have hfin := fill_all_inv
      ⟨max 1 mi, max (1/10 : ℚ) mw, min 100000 (items.length / 10 + 1000),
        fun k => (k : Int) + 1⟩ hmi0 hmw0
      items 1000000 ⟨[], pack.init 1⟩ (empty_st_inv _ _ 1 hmi0 hmw0)
    have hp2 := st_inv_mem _ _ _ hfin p hp
    exact ⟨hp2.1, by linarith [hp2.2.2.1]⟩
  · intro p hp
    have hfin := fill_all_inv
      ⟨max 1 mi, max (1/10 : ℚ) mw, min 20000 (chunk.length / 10 + 500), numOf⟩
      hmi0 hmw0 chunk 500000 ⟨[], pack.init (numOf 0)⟩
      (empty_st_inv _ _ (numOf 0) hmi0 hmw0)
    have hp2 := st_inv_mem _ _ _ hfin p hp
    exact ⟨hp2.1, by linarith [hp2.2.2.1]⟩

/-- C1 witness: a concrete run of the sequential path with one item. -/
theorem capacity_invariant_witness :
    ((⟨1, [⟨1, 1, 1, 1⟩], 1, 1, 1⟩ : pack) ∈ pack_items_seq [⟨1, 1, 1, 1⟩] 10 25) ∧
    ((⟨1, [⟨1, 1, 1, 1⟩], 1, 1, 1⟩ : pack).total_items ≤ max 1 10 ∧
      (⟨1, [⟨1, 1, 1, 1⟩], 1, 1, 1⟩ : pack).total_weight ≤
        max (1/10 : ℚ) 25 + 1/1000000000) :=
  ⟨by decide,
    (capacity_invariant [⟨1, 1, 1, 1⟩] [] (fun _ => 7) 10 25).1 _ (by decide)⟩

/-- Two input lines sharing the id 1, used to refute the per-item reading of
the conservation claim. -/
def dup_id_items : List item := [⟨1, 1, 3, 1⟩, ⟨1, 1, 5, 1⟩]

/-- C2 counterexample: with two packable items of the same id (quantities 3
and 5), the records of that id sum to 8 across the output, not to the first
item's quantity 3 — the claim's "equals that item's input quantity" fails
on inputs with repeated ids, although no safety ceiling is hit. -/
theorem conservation_counterexample :
    (∀ i ∈ dup_id_items, 0 < i.quantity ∧ i.weight ≤ max (1/10 : ℚ) 100) ∧
    (⟨1, 1, 3, 1⟩ : item) ∈ dup_id_items ∧
    0 < (seq_run dup_id_items 100 100).1 ∧
    (seq_run dup_id_items 100 100).2.finished.length + 1 <
      min 100000 (dup_id_items.length / 10 + 1000) ∧
    out_qty 1 (pack_items_seq dup_id_items 100 100) ≠ 3 := by
  refine ⟨by decide, by decide, by decide, by decide, by decide⟩

/-- C2 (amended): per id rather than per input line — when every item is
packable (positive quantity, unit weight within the normalised weight limit)
and neither the iteration ceiling nor the pack-count ceiling of the
sequential fill is hit, the record quantities of each id across all returned
packs sum to exactly the total input quantity of that id.  (For inputs with
pairwise distinct ids this is precisely one record sum per input item.) -/
theorem conservation (items : List item) (mi : Int) (mw : ℚ) (v : Int)
    (hall : ∀ i ∈ items, 0 < i.quantity ∧ i.weight ≤ max (1/10 : ℚ) mw)
    (hfuel : 0 < (seq_run items mi mw).1)
    (hcap : (seq_run items mi mw).2.finished.length + 1 <
      min 100000 (items.length / 10 + 1000)) :
    out_qty v (pack_items_seq items mi mw) = in_qty v items := by
  have hmi : (1 : Int) ≤ max 1 mi := le_max_left 1 mi
  have hmw : (1/10 : ℚ) ≤ max (1/10 : ℚ) mw := le_max_left (1/10 : ℚ) mw
  have h := fill_all_out_qty
    ⟨max 1 mi, max (1/10 : ℚ) mw, min 100000 (items.length / 10 + 1000),
      fun k => (k : Int) + 1⟩ v hmi hmw
    items 1000000 ⟨[], pack.init 1⟩ hall
    (empty_st_inv _ _ 1 (le_trans zero_le_one (le_max_left 1 mi))
      (le_trans (by norm_num) (le_max_left (1/10 : ℚ) mw))) hfuel hcap
  have h0 : out_qty v (packs_of ⟨[], pack.init 1⟩) = 0 := by
    simp [packs_of, out_qty, rec_qty, pack.init]
  rw [h0, zero_add] at h
  exact h

/-- C2 witness: a concrete distinct-id run where the theorem's hypotheses
hold and conservation is checked for id 1. -/
theorem conservation_witness :
    out_qty 1 (pack_items_seq [⟨1, 1, 3, 1⟩, ⟨2, 1, 5, 2⟩] 10 25) =
      in_qty 1 [⟨1, 1, 3, 1⟩, ⟨2, 1, 5, 2⟩] :=
  conservation [⟨1, 1, 3, 1⟩, ⟨2, 1, 5, 2⟩] 10 25 1
    (by decide) (by decide) (by decide)

/-- C3 counterexample: at unit weight -1 the code floors the weight to 0 and
accepts the full request (5), while the claim's formula
`floor((max_weight - total_weight)/unit_weight)` clamped to >= 0 yields
room_by_weight 0 and an accepted quantity of 0. -/
theorem accept_formula_counterexample :
    ((pack.init 1).add_partial_item 7 1 5 (-1) 10 10).1 = 5 ∧
    spec_accept (pack.init 1) 5 (-1) 10 10 = 0 ∧
    (0 : Int) < 5 ∧ (0 : Int) < 10 ∧ (0 : ℚ) ≤ 10 := by
  refine ⟨by decide, by decide, by decide, by decide, by decide⟩

/-- The spec's acceptance formula evaluated at the floored weight agrees
with the code's `can_add`. -/
theorem spec_accept_eq (p : pack) (q : Int) (w : ℚ) (mi : Int) (mw : ℚ)
    (hq : 0 < q) (hmi : 0 < mi) (hmw : 0 ≤ mw) :
    spec_accept p q (max 0 w) mi mw = accept_amount p q w mi mw := by
  have hguard : ¬(q ≤ 0 ∨ mi ≤ 0 ∨ mw < 0) := by
    rintro (h | h | h)
    · omega
    · omega
    · linarith
  simp only [spec_accept, spec_room_by_weight, accept_amount, if_neg hguard]
  by_cases hw : max 0 w = 0
  · simp only [if_pos hw]
    rw [max_eq_right (le_of_lt hq)]
  · simp only [if_neg hw]
    rw [max_zero_ratTrunc]

/-- C3 (amended): for every pack state and every call with positive request,
positive max_items and nonnegative max_weight, the returned accepted
quantity equals `min(room_by_count, room_by_weight, requested)` where
`room_by_weight` is computed from the unit weight first floored at 0 (the
claim's formula, which reads the raw weight, fails at negative weights);
when the minimum is positive a record with exactly that quantity is appended
and the aggregates are updated accordingly. -/
theorem accept_formula (p : pack) (id length q : Int) (w : ℚ)
    (mi : Int) (mw : ℚ) (hq : 0 < q) (hmi : 0 < mi) (hmw : 0 ≤ mw) :
    (p.add_partial_item id length q w mi mw).1 =
      spec_accept p q (max 0 w) mi mw ∧
    (0 < spec_accept p q (max 0 w) mi mw →
      (p.add_partial_item id length q w mi mw).2 =
        { p with
          items := p.items ++
            [⟨id, max 1 length, spec_accept p q (max 0 w) mi mw, max 0 w⟩],
          total_items := p.total_items + spec_accept p q (max 0 w) mi mw,
          total_weight := p.total_weight +
            (spec_accept p q (max 0 w) mi mw : ℚ) * max 0 w,
          max_length := max p.max_length (max 1 length) }) := by
  have he := spec_accept_eq p q w mi mw hq hmi hmw
  constructor
  · rw [add_partial_fst, he]
  · intro hpos
    rw [he] at hpos ⊢
    exact add_partial_snd_pos p id length q w mi mw hpos

/-- C3 witness: a concrete successful partial acceptance. -/
theorem accept_formula_witness :
    ((pack.init 1).add_partial_item 4 2 9 3 5 10).1 =
      spec_accept (pack.init 1) 9 (max 0 3) 5 10 ∧
    (0 < spec_accept (pack.init 1) 9 (max 0 3) 5 10 →
      ((pack.init 1).add_partial_item 4 2 9 3 5 10).2 =
        { pack.init 1 with
          items := (pack.init 1).items ++
            [⟨4, max 1 2, spec_accept (pack.init 1) 9 (max 0 3) 5 10, max 0 3⟩],
          total_items := (pack.init 1).total_items +
            spec_accept (pack.init 1) 9 (max 0 3) 5 10,
          total_weight := (pack.init 1).total_weight +
            (spec_accept (pack.init 1) 9 (max 0 3) 5 10 : ℚ) * max 0 3,
          max_length := max (pack.init 1).max_length (max 1 2) }) :=
  accept_formula (pack.init 1) 4 2 9 3 5 10 (by decide) (by decide) (by decide)

/-- C4: acceptance is defensive and atomic — abnormal inputs return 0
accepted, and whenever 0 is returned the pack is completely unchanged. -/
theorem accept_defensive (p : pack) (id length q : Int) (w : ℚ)
    (mi : Int) (mw : ℚ) :
    ((q ≤ 0 ∨ mi ≤ 0 ∨ mw < 0) →
      p.add_partial_item id length q w mi mw = (0, p)) ∧
    ((p.add_partial_item id length q w mi mw).1 = 0 →
      (p.add_partial_item id length q w mi mw).2 = p) := by
  constructor
  · intro h
    simp only [pack.add_partial_item, if_pos h]
  · intro h
    rw [add_partial_fst] at h
    exact add_partial_snd_nonpos p id length q w mi mw (le_of_eq h)

/-- C4 witness: a zero-quantity request is rejected and leaves the pack
untouched. -/
theorem accept_defensive_witness :
    ((0 : Int) ≤ 0 ∨ (5 : Int) ≤ 0 ∨ (10 : ℚ) < 0) ∧
    (pack.init 1).add_partial_item 2 3 0 1 5 10 = (0, pack.init 1) :=
  ⟨Or.inl (le_refl 0),
    (accept_defensive (pack.init 1) 2 3 0 1 5 10).1 (Or.inl (le_refl 0))⟩

/-- A too-heavy line and a packable line sharing the id 1, used to refute
the per-item reading of the drop policy. -/
def heavy_dup_items : List item := [⟨1, 1, 1, 50⟩, ⟨1, 1, 1, 1⟩]

/-- C5 counterexample: the first input item (weight 50) strictly exceeds the
normalised max_weight 25, yet the output does contain a record with its id —
the record produced by the second, packable item of the same id.  The
"output contains no record with that item's id" reading fails on inputs
with repeated ids. -/
theorem heavy_drop_counterexample :
    max (1/10 : ℚ) 25 < (⟨1, 1, 1, 50⟩ : item).weight ∧
    (⟨1, 1, 1, 50⟩ : item) ∈ heavy_dup_items ∧
    ¬(∀ p ∈ pack_items_seq heavy_dup_items 10 25, ∀ rr ∈ p.items, rr.id ≠ 1) := by
  refine ⟨by decide, by decide, by decide⟩

/-- C5 (amended): per id — whenever every input item of a given id is
strictly heavier than the normalised max_weight, its entire quantity is
dropped without error: the sequential output contains no record with that id
and the packed quantity of that id is 0.  (For an id carried by a single
input item — e.g. one item of weight 50 under max_weight 25 — this is
exactly the claim's statement.) -/
theorem heavy_drop (items : List item) (mi : Int) (mw : ℚ) (v : Int)
    (hv : ∀ i ∈ items, i.id = v → max (1/10 : ℚ) mw < i.weight) :
    (∀ p ∈ pack_items_seq items mi mw, ∀ rr ∈ p.items, rr.id ≠ v) ∧
    out_qty v (pack_items_seq items mi mw) = 0 := by
  have hmi0 : (0 : Int) ≤ max 1 mi := le_trans zero_le_one (le_max_left 1 mi)
  have hmw1 : (1/10 : ℚ) ≤ max (1/10 : ℚ) mw := le_max_left (1/10 : ℚ) mw
  have hnr := fill_all_no_rec
    ⟨max 1 mi, max (1/10 : ℚ) mw, min 100000 (items.length / 10 + 1000),
      fun k => (k : Int) + 1⟩ v hmi0 hmw1
    items 1000000 ⟨[], pack.init 1⟩ hv
    (empty_st_inv _ _ 1 hmi0 (by linarith))
    ⟨fun p hp => absurd hp (List.not_mem_nil p),
      fun rr hrr => absurd hrr (List.not_mem_nil rr)⟩
  have hmem : ∀ p ∈ pack_items_seq items mi mw, ∀ rr ∈ p.items, rr.id ≠ v := by
    intro p hp
    rcases List.mem_append.mp hp with hp | hp
    · exact hnr.1 p hp
    · intro rr hrr
      rw [List.mem_singleton.mp hp] at hrr
      exact hnr.2 rr hrr
  exact ⟨hmem, out_qty_zero v _ hmem⟩

/-- C5 witness: a single too-heavy item is dropped entirely. -/
theorem heavy_drop_witness :
    (∀ p ∈ pack_items_seq [⟨1, 100, 3, 50⟩] 10 25, ∀ rr ∈ p.items, rr.id ≠ 1) ∧
    out_qty 1 (pack_items_seq [⟨1, 100, 3, 50⟩] 10 25) = 0 :=
  heavy_drop [⟨1, 100, 3, 50⟩] 10 25 1 (by decide)

/-- C6: below the 5000-item threshold, or with a single worker, the parallel
strategy's `pack_items` takes the sequential branch and returns exactly the
pack list of the (spec-modelled) sequential blocking strategy. -/
theorem threshold_fallback (m : Nat) (items : List item) (mi : Int) (mw : ℚ)
    (h : items.length < 5000 ∨ used_threads m = 1) :
    parallel_pack_items m items mi mw = some (blocking_pack_items items mi mw) := by
  simp only [parallel_pack_items, if_pos h]
  rw [blocking_eq_seq]

/-- C6 witness: a concrete small input takes the fallback. -/
theorem threshold_fallback_witness :
    parallel_pack_items 4 [⟨1, 1, 2, 1⟩] 10 25 =
      some (blocking_pack_items [⟨1, 1, 2, 1⟩] 10 25) :=
  threshold_fallback 4 [⟨1, 1, 2, 1⟩] 10 25 (by decide)

/-- C7: the sequential fill returns its packs in creation order carrying the
pack numbers 1, 2, ..., N — the ascending contiguous range with no gaps; in
particular all pack numbers are pairwise distinct. -/
theorem sequential_numbering (items : List item) (mi : Int) (mw : ℚ) :
    (pack_items_seq items mi mw).map pack.pack_number =
      (List.range (pack_items_seq items mi mw).length).map
        (fun k : Nat => (k : Int) + 1) ∧
    ((pack_items_seq items mi mw).map pack.pack_number).Nodup := by
  have h0 : nums_ok ⟨[], pack.init 1⟩ := by
    constructor
    · rfl
    · simp [pack.init]
  have hfin := fill_all_nums
    ⟨max 1 mi, max (1/10 : ℚ) mw, min 100000 (items.length / 10 + 1000),
      fun k => (k : Int) + 1⟩ rfl items 1000000 ⟨[], pack.init 1⟩ h0
  have hmap : (pack_items_seq items mi mw).map pack.pack_number =
      (List.range (pack_items_seq items mi mw).length).map
        (fun k : Nat => (k : Int) + 1) := by
    obtain ⟨h1, h2⟩ := hfin
    show (packs_of (fill_all
        ⟨max 1 mi, max (1/10 : ℚ) mw, min 100000 (items.length / 10 + 1000),
          fun k => (k : Int) + 1⟩ items 1000000 ⟨[], pack.init 1⟩).2).map
        pack.pack_number =
      (List.range (packs_of (fill_all
        ⟨max 1 mi, max (1/10 : ℚ) mw, min 100000 (items.length / 10 + 1000),
          fun k => (k : Int) + 1⟩ items 1000000
          ⟨[], pack.init 1⟩).2).length).map (fun k : Nat => (k : Int) + 1)
    simp only [packs_of, List.map_append, List.map_cons, List.map_nil,
      List.length_append, List.length_cons, List.length_nil]
    rw [h1, h2, List.range_succ]
    simp
  refine ⟨hmap, ?_⟩
  rw [hmap]
  exact List.Nodup.map (fun a b h => by omega) (List.nodup_range _)

/-- C8 counterexample: constructed with the declared default argument (4)
on a machine with hardware parallelism 5, the strategy's worker count is 4,
not the hardware parallelism — only the explicit sentinel value 0 selects
hardware parallelism. -/
theorem thread_default_counterexample :
    ctor_threads 5 hardware_default_arg ≠ 5 := by decide

/-- C8 (amended): the constructor's declared default is 4 workers; the
sentinel value 0 (not an omitted argument) selects the available hardware
parallelism; and in every `pack_items` call the worker count actually used
is clamped to the range [1, 32]. -/
theorem thread_count_config (hw m : Nat) :
    ctor_threads hw 0 = hw ∧
    ctor_threads hw hardware_default_arg = 4 ∧
    1 ≤ used_threads m ∧ used_threads m ≤ 32 := by
  refine ⟨?_, rfl, ?_, ?_⟩
  · simp [ctor_threads]
  · simp only [used_threads]
    omega
  · simp only [used_threads]
    omega

/-- C9: on an empty pack (no records, zero aggregates), under normalised
constraints (`max_items >= 1`, `max_weight >= 0.1`) and a unit weight with
`0 <= weight <= max_weight`, any request of at least one unit is accepted at
least partially — hence the fill loop's "current pack is empty" defensive
branch is unreachable for packable items. -/
theorem empty_pack_accepts (p : pack) (id length q : Int) (w : ℚ)
    (mi : Int) (mw : ℚ)
    (hempty : p.items = []) (hti : p.total_items = 0) (htw : p.total_weight = 0)
    (hq : 1 ≤ q) (hmi : 1 ≤ mi) (hmw : 1/10 ≤ mw)
    (hw0 : 0 ≤ w) (hwle : w ≤ mw) :
    1 ≤ (p.add_partial_item id length q w mi mw).1 := by
  rw [add_partial_fst]
  have := accept_amount_pos p q w mi mw hti htw (by omega) hmi hmw hwle
  omega

/-- C9 witness: a fresh pack accepts at least one unit of a packable item. -/
theorem empty_pack_accepts_witness :
    1 ≤ ((pack.init 1).add_partial_item 1 2 3 2 4 10).1 :=
  empty_pack_accepts (pack.init 1) 1 2 3 2 4 10 rfl rfl rfl
    (by norm_num) (by norm_num) (by norm_num) (by norm_num) (by norm_num)

/-- C10: `pack::add_item` is all-or-nothing — it succeeds, appending the
whole item and updating the aggregates (total_items by the quantity,
total_weight by the item's total weight, max_length to at least the item's
length), exactly when both new totals fit; otherwise it returns false and
leaves the pack unchanged. -/
theorem add_item_all_or_nothing (p : pack) (i : item) (mi : Int) (mw : ℚ) :
    ((p.total_items + i.quantity ≤ mi ∧
        p.total_weight + i.get_total_weight ≤ mw) →
      p.add_item i mi mw = (true,
        { p with
          items := p.items ++ [i],
          total_items := p.total_items + i.quantity,
          total_weight := p.total_weight + i.get_total_weight,
          max_length := max p.max_length i.length })) ∧
    (¬(p.total_items + i.quantity ≤ mi ∧
        p.total_weight + i.get_total_weight ≤ mw) →
      p.add_item i mi mw = (false, p)) := by
  constructor
  · intro h
    simp only [pack.add_item, if_pos h]
  · intro h
    simp only [pack.add_item, if_neg h]

/-- C10 witness: a concrete successful whole-item insertion. -/
theorem add_item_witness :
    (pack.init 1).add_item ⟨1, 2, 3, 1⟩ 10 10 = (true,
      { pack.init 1 with
        items := (pack.init 1).items ++ [⟨1, 2, 3, 1⟩],
        total_items := (pack.init 1).total_items + (⟨1, 2, 3, 1⟩ : item).quantity,
        total_weight := (pack.init 1).total_weight +
          (⟨1, 2, 3, 1⟩ : item).get_total_weight,
        max_length := max (pack.init 1).max_length (⟨1, 2, 3, 1⟩ : item).length }) :=
  (add_item_all_or_nothing (pack.init 1) ⟨1, 2, 3, 1⟩ 10 10).1 (by decide)
